import Mathlib

/-!
Verification of the Transfer Investigation Agent's core pipeline
(`app/ingest.py`, `app/query.py`, `app/models.py`).

The Python source is embedded shallowly:
* strings become `List Char`;
* `str.rfind(sub, a, b)` becomes `pyRfind` (a downward scan for the last
  match inside the slice bounds);
* `str.strip()` becomes `pyStrip` (ASCII whitespace, which covers every
  character the repository's documents and the claims exercise);
* the `while` loop of `_chunk_text` becomes a fuel-indexed recursion
  `chunkLoopO` returning `none` exactly when the fuel runs out before the
  loop finishes, so termination is a provable statement rather than an
  assumption.
-/

namespace TransferAgent

/-- ASCII whitespace as recognised by Python's `str.strip()` on the
character set the repository's documents use. -/
def isPySpace (c : Char) : Bool :=
  c == ' ' || c == '\t' || c == '\n' || c == '\r' || c == '\x0b' || c == '\x0c'

/-- Python `str.strip()`: drop whitespace from both ends. -/
def pyStrip (s : List Char) : List Char :=
  ((s.dropWhile isPySpace).reverse.dropWhile isPySpace).reverse

/-- Python `text.replace("\r\n", "\n")`: left-to-right, non-overlapping. -/
def replCRLF : List Char → List Char
  | '\r' :: '\n' :: rest => '\n' :: replCRLF rest
  | c :: rest => c :: replCRLF rest
  | [] => []

/-- `text.replace("\r\n", "\n").replace("\r", "\n")` from `_chunk_text`. -/
def normalize (s : List Char) : List Char :=
  (replCRLF s).map (fun c => if c == '\r' then '\n' else c)

/-- Largest index `i` with `a ≤ i ≤ top` satisfying `P`, or `-1`:
the downward scan underlying Python's `str.rfind`. -/
def lastHit (P : Nat → Bool) (a : Nat) : Nat → Int
  | 0 => if a == 0 && P 0 then 0 else -1
  | i + 1 => if a ≤ i + 1 && P (i + 1) then Int.ofNat (i + 1) else lastHit P a i

/-- Python `s.rfind(sub, a, b)` for non-empty `sub`: the largest start
index `i ≥ a` such that `sub` occurs at `i` and ends by `min b (len s)`. -/
def pyRfind (s sub : List Char) (a b : Nat) : Int :=
  let hi := min b s.length
  if sub.length ≤ hi then
    lastHit (fun i => sub.isPrefixOf (s.drop i)) a (hi - sub.length)
  else -1

/-- `_find_break(text, near, tolerance)` from `app/ingest.py`. -/
def find_break (text : List Char) (near tolerance : Nat) : Nat :=
  let window_start := near - tolerance
  let pos := pyRfind text ['\n', '\n'] window_start near
  if pos != -1 then pos.toNat + 2
  else
    let best_sentence :=
      [['.', '\n'], ['!', '\n'], ['?', '\n'], ['.', ' '], ['!', ' '], ['?', ' ']].foldl
        (fun best punct => max best (pyRfind text punct window_start near)) (-1)
    if best_sentence != -1 then best_sentence.toNat + 2
    else
      let pos2 := pyRfind text [' '] window_start near
      if pos2 != -1 then pos2.toNat + 1
      else near

/-- The cut actually used by one `_chunk_text` iteration: `_find_break`
followed by the safety fallback `if cut <= start: cut = end`. -/
def effectiveCut (text : List Char) (chunk_size tolerance start : Nat) : Nat :=
  let cut := find_break text (start + chunk_size) tolerance
  if cut ≤ start then start + chunk_size else cut

/-- The next loop position: `start = max(start + 1, cut - overlap)`.
Python's `cut - overlap` may be negative, but the `max` with `start + 1 ≥ 1`
makes truncated subtraction agree with the Python value. -/
def nextStart (text : List Char) (chunk_size overlap tolerance start : Nat) : Nat :=
  max (start + 1) (effectiveCut text chunk_size tolerance start - overlap)

/-- The `while start < len(text)` loop of `_chunk_text`, fuel-indexed:
`none` means the fuel ran out before the loop finished. -/
def chunkLoopO (text : List Char) (chunk_size overlap tolerance : Nat) :
    Nat → Nat → Option (List (List Char))
  | 0, start => if start < text.length then none else some []
  | fuel + 1, start =>
    if start < text.length then
      if text.length ≤ start + chunk_size then
        let chunk := pyStrip (text.drop start)
        some (if chunk.isEmpty then [] else [chunk])
      else
        let cut := effectiveCut text chunk_size tolerance start
        let chunk := pyStrip ((text.drop start).take (cut - start))
        match chunkLoopO text chunk_size overlap tolerance fuel
            (nextStart text chunk_size overlap tolerance start) with
        | none => none
        | some rest => some (if chunk.isEmpty then rest else chunk :: rest)
    else some []

/-- Companion to `chunkLoopO` recording the un-trimmed extent
`(start, cut)` of every emitted chunk; the final end-of-text chunk gets
the extent `(start, text.length)`. -/
def chunkSpansO (text : List Char) (chunk_size overlap tolerance : Nat) :
    Nat → Nat → Option (List (Nat × Nat))
  | 0, start => if start < text.length then none else some []
  | fuel + 1, start =>
    if start < text.length then
      if text.length ≤ start + chunk_size then
        some (if (pyStrip (text.drop start)).isEmpty then []
          else [(start, text.length)])
      else
        let cut := effectiveCut text chunk_size tolerance start
        match chunkSpansO text chunk_size overlap tolerance fuel
            (nextStart text chunk_size overlap tolerance start) with
        | none => none
        | some rest =>
          some (if (pyStrip ((text.drop start).take (cut - start))).isEmpty
            then rest else (start, cut) :: rest)
    else some []

/-- `_chunk_text(text, chunk_size, overlap)` from `app/ingest.py`.
Fuel `(normalize text).length` always suffices (proved below), so the
`getD []` default is never taken. -/
def chunk_text (text : List Char) (chunk_size overlap : Nat) : List (List Char) :=
  let t := normalize text
  (chunkLoopO t chunk_size overlap (chunk_size / 4) t.length 0).getD []

/-- The un-trimmed extents of the chunks `chunk_text` emits. -/
def chunk_spans (text : List Char) (chunk_size overlap : Nat) : List (Nat × Nat) :=
  let t := normalize text
  (chunkSpansO t chunk_size overlap (chunk_size / 4) t.length 0).getD []

/-! ### Whitespace and trimming lemmas -/

lemma dropWhile_head_not {α : Type} (p : α → Bool) :
    ∀ (l : List α) (c : α), (l.dropWhile p).head? = some c → p c = false := by
  intro l
  induction l with
  | nil => intro c h; simp [List.dropWhile] at h
  | cons x xs ih =>
    intro c h
    by_cases hx : p x
    · rw [List.dropWhile_cons_of_pos hx] at h
      exact ih c h
    · rw [List.dropWhile_cons_of_neg hx] at h
      simp at h
      rw [← h]
      exact Bool.eq_false_iff.mpr hx

lemma dropWhile_eq_self_of_head {α : Type} (p : α → Bool) (l : List α)
    (h : ∀ c, l.head? = some c → p c = false) : l.dropWhile p = l := by
  cases l with
  | nil => rfl
  | cons x xs =>
    have hx : p x = false := h x rfl
    rw [List.dropWhile_cons_of_neg (by simp [hx])]

lemma getLast?_dropWhile {α : Type} (p : α → Bool) :
    ∀ (l : List α), l.dropWhile p ≠ [] → (l.dropWhile p).getLast? = l.getLast? := by
  intro l
  induction l with
  | nil => intro h; simp [List.dropWhile] at h
  | cons x xs ih =>
    intro h
    by_cases hx : p x
    · rw [List.dropWhile_cons_of_pos hx] at h ⊢
      have hxs : xs ≠ [] := by
        intro hc; rw [hc] at h; simp [List.dropWhile] at h
      obtain ⟨y, ys, rfl⟩ := List.exists_cons_of_ne_nil hxs
      rw [List.getLast?_cons_cons]
      exact ih h
    · rw [List.dropWhile_cons_of_neg hx]

lemma length_dropWhile_le {α : Type} (p : α → Bool) (l : List α) :
    (l.dropWhile p).length ≤ l.length :=
  (List.dropWhile_sublist p).length_le

lemma dropWhile_eq_self_of_length {α : Type} (p : α → Bool) :
    ∀ (l : List α), (l.dropWhile p).length = l.length → l.dropWhile p = l := by
  intro l
  induction l with
  | nil => intro _; rfl
  | cons x xs _ =>
    intro h
    by_cases hx : p x
    · rw [List.dropWhile_cons_of_pos hx] at h
      have := length_dropWhile_le p xs
      simp at h
      omega
    · rw [List.dropWhile_cons_of_neg hx]

lemma pyStrip_eq_nil_iff (s : List Char) :
    pyStrip s = [] ↔ ∀ c ∈ s, isPySpace c = true := by
  unfold pyStrip
  rw [List.reverse_eq_nil_iff, List.dropWhile_eq_nil_iff]
  constructor
  · intro h c hc
    by_cases hdrop : c ∈ s.dropWhile isPySpace
    · exact h c (by simpa using hdrop)
    · have hsplit := List.takeWhile_append_dropWhile isPySpace s
      rw [← hsplit] at hc
      rcases List.mem_append.mp hc with htake | hd
      · exact List.mem_takeWhile_imp htake
      · exact absurd hd hdrop
  · intro h c hc
    exact h c ((List.dropWhile_sublist isPySpace).subset (List.mem_reverse.mp hc))

lemma mem_getLast?_mem {α : Type} {l : List α} {c : α} (h : l.getLast? = some c) : c ∈ l := by
  obtain ⟨hne, rfl⟩ := List.mem_getLast?_eq_getLast h
  exact List.getLast_mem hne

lemma pyStrip_trimmed_head (s : List Char) :
    ∀ c, (pyStrip s).head? = some c → isPySpace c = false := by
  intro c h
  unfold pyStrip at h
  rw [List.head?_reverse] at h
  have hne : (s.dropWhile isPySpace).reverse.dropWhile isPySpace ≠ [] := by
    intro hc; rw [hc] at h; simp at h
  rw [getLast?_dropWhile isPySpace _ hne] at h
  rw [List.getLast?_reverse] at h
  exact dropWhile_head_not isPySpace _ c h

lemma pyStrip_trimmed_last (s : List Char) :
    ∀ c, (pyStrip s).getLast? = some c → isPySpace c = false := by
  intro c h
  unfold pyStrip at h
  rw [List.getLast?_reverse] at h
  exact dropWhile_head_not isPySpace _ c h

lemma pyStrip_eq_self_of_trimmed (s : List Char)
    (h1 : ∀ c, s.head? = some c → isPySpace c = false)
    (h2 : ∀ c, s.getLast? = some c → isPySpace c = false) : pyStrip s = s := by
  unfold pyStrip
  rw [dropWhile_eq_self_of_head isPySpace s h1]
  rw [dropWhile_eq_self_of_head isPySpace s.reverse
    (fun c hc => h2 c (by rwa [List.head?_reverse] at hc))]
  exact List.reverse_reverse s

lemma pyStrip_idem (s : List Char) : pyStrip (pyStrip s) = pyStrip s :=
  pyStrip_eq_self_of_trimmed _ (pyStrip_trimmed_head s) (pyStrip_trimmed_last s)

lemma pyStrip_length_le (s : List Char) : (pyStrip s).length ≤ s.length := by
  unfold pyStrip
  rw [List.length_reverse]
  calc ((s.dropWhile isPySpace).reverse.dropWhile isPySpace).length
      ≤ (s.dropWhile isPySpace).reverse.length := length_dropWhile_le _ _
    _ = (s.dropWhile isPySpace).length := List.length_reverse _
    _ ≤ s.length := length_dropWhile_le _ _

lemma trimmed_of_pyStrip_eq_self (s : List Char) (h : pyStrip s = s) :
    (∀ c, s.head? = some c → isPySpace c = false) ∧
    (∀ c, s.getLast? = some c → isPySpace c = false) :=
  ⟨fun c hc => pyStrip_trimmed_head s c (by rwa [h]),
   fun c hc => pyStrip_trimmed_last s c (by rwa [h])⟩

/-! ### Normalization lemmas -/

lemma replCRLF_cons₂ (x d : Char) (ds : List Char) (h : ¬(x = '\r' ∧ d = '\n')) :
    replCRLF (x :: d :: ds) = x :: replCRLF (d :: ds) := by
  rw [replCRLF.eq_def]
  split
  next rest heq =>
    injection heq with h1 h2
    injection h2 with h2 h3
    exact absurd ⟨h1, h2⟩ h
  next c rest hne heq =>
    injection heq with h1 h2
    subst h1; subst h2; rfl
  next heq => exact absurd heq (by simp)

lemma replCRLF_length_le : ∀ (s : List Char), (replCRLF s).length ≤ s.length := by
  intro s
  induction s using replCRLF.induct with
  | case1 rest ih => simpa [replCRLF] using Nat.le_trans ih (Nat.le_succ _)
  | case2 c rest h ih =>
    cases rest with
    | nil => simp [replCRLF]
    | cons d ds =>
      rw [replCRLF_cons₂ c d ds (fun hc => h ds hc.1 (by rw [hc.2]))]
      simpa using ih
  | case3 => simp [replCRLF]

lemma normalize_length_le (s : List Char) : (normalize s).length ≤ s.length := by
  unfold normalize
  rw [List.length_map]
  exact replCRLF_length_le s

lemma mem_replCRLF_of_ne_cr : ∀ (s : List Char) (c : Char), c ∈ s → c ≠ '\r' →
    c ∈ replCRLF s := by
  intro s
  induction s using replCRLF.induct with
  | case1 rest ih =>
    intro c hc hne
    rw [show replCRLF ('\r' :: '\n' :: rest) = '\n' :: replCRLF rest from rfl]
    simp at hc
    rcases hc with h | h | h
    · exact absurd h hne
    · simp [h]
    · simp [ih c h hne]
  | case2 x rest h ih =>
    intro c hc hne
    cases rest with
    | nil =>
      simp at hc
      simp [replCRLF, hc]
    | cons d ds =>
      rw [replCRLF_cons₂ x d ds (fun hp => h ds hp.1 (by rw [hp.2]))]
      simp at hc
      rcases hc with h' | h'
      · simp [h']
      · simp [ih c (List.mem_cons.mpr h') hne]
  | case3 => intro c hc _; simp at hc

lemma mem_normalize_nonspace (s : List Char)
    (h : ∃ c ∈ s, isPySpace c = false) : ∃ c ∈ normalize s, isPySpace c = false := by
  obtain ⟨c, hc, hns⟩ := h
  have hne : c ≠ '\r' := by
    intro hc'; rw [hc'] at hns; simp [isPySpace] at hns
  refine ⟨c, ?_, hns⟩
  unfold normalize
  exact List.mem_map.mpr ⟨c, mem_replCRLF_of_ne_cr s c hc hne, by simp [hne]⟩

/-! ### Scanner (`rfind`) lemmas -/

lemma lastHit_sound (P : Nat → Bool) (a : Nat) : ∀ (t : Nat),
    lastHit P a t = -1 ∨
      ∃ i : Nat, lastHit P a t = (i : Int) ∧ a ≤ i ∧ i ≤ t ∧ P i = true := by
  intro t
  induction t with
  | zero =>
    unfold lastHit
    by_cases h : (a == 0 && P 0) = true
    · right
      have ha : a = 0 := by
        have := (Bool.and_eq_true_iff.mp h).1
        simpa using this
      exact ⟨0, by simp [h], by omega, Nat.le_refl 0, (Bool.and_eq_true_iff.mp h).2⟩
    · left; simp [h]
  | succ t ih =>
    unfold lastHit
    by_cases h : (decide (a ≤ t + 1) && P (t + 1)) = true
    · right
      obtain ⟨ha, hp⟩ := Bool.and_eq_true_iff.mp h
      exact ⟨t + 1, by simp [h], by simpa using ha, Nat.le_refl _, hp⟩
    · rcases ih with h1 | ⟨i, h1, h2, h3, h4⟩
      · left; simp [h, h1]
      · right; exact ⟨i, by simp [h, h1], h2, Nat.le_succ_of_le h3, h4⟩

lemma lastHit_complete (P : Nat → Bool) (a : Nat) : ∀ (t i : Nat),
    a ≤ i → i ≤ t → P i = true → (i : Int) ≤ lastHit P a t := by
  intro t
  induction t with
  | zero =>
    intro i ha hi hp
    interval_cases i
    unfold lastHit
    simp [Nat.le_zero.mp ha, hp]
  | succ t ih =>
    intro i ha hi hp
    unfold lastHit
    by_cases h : (decide (a ≤ t + 1) && P (t + 1)) = true
    · simp only [h, if_true]
      rw [show Int.ofNat (t + 1) = ((t + 1 : Nat) : Int) from rfl]
      exact_mod_cast hi
    · simp only [h, if_false]
      rcases Nat.lt_or_ge i (t + 1) with hlt | hge
      · exact ih i ha (Nat.lt_succ_iff.mp hlt) hp
      · have : i = t + 1 := Nat.le_antisymm hi hge
        subst this
        simp [ha, hp] at h

lemma lastHit_ge (P : Nat → Bool) (a t : Nat) : -1 ≤ lastHit P a t := by
  rcases lastHit_sound P a t with h | ⟨i, h, _, _, _⟩ <;> rw [h] <;> omega

lemma pyRfind_sound (s sub : List Char) (a b : Nat) :
    pyRfind s sub a b = -1 ∨
      ∃ i : Nat, pyRfind s sub a b = (i : Int) ∧ a ≤ i ∧
        i + sub.length ≤ min b s.length ∧ sub.isPrefixOf (s.drop i) = true := by
  unfold pyRfind
  by_cases h : sub.length ≤ min b s.length
  · simp only [h, if_true]
    rcases lastHit_sound (fun i => sub.isPrefixOf (s.drop i)) a (min b s.length - sub.length)
      with h1 | ⟨i, h1, h2, h3, h4⟩
    · left; exact h1
    · right; exact ⟨i, h1, h2, by omega, h4⟩
  · left; simp [h]

lemma pyRfind_complete (s sub : List Char) (a b i : Nat)
    (ha : a ≤ i) (hb : i + sub.length ≤ b) (hs : i + sub.length ≤ s.length)
    (hp : sub.isPrefixOf (s.drop i) = true) :
    (i : Int) ≤ pyRfind s sub a b := by
  unfold pyRfind
  have hle : sub.length ≤ min b s.length := by omega
  simp only [hle, if_true]
  exact lastHit_complete _ a _ i ha (by omega) hp

lemma pyRfind_ge (s sub : List Char) (a b : Nat) : -1 ≤ pyRfind s sub a b := by
  rcases pyRfind_sound s sub a b with h | ⟨i, h, _, _, _⟩ <;> rw [h] <;> omega

lemma isPrefixOf_pair (x y : Char) (s : List Char) (i : Nat) :
    [x, y].isPrefixOf (s.drop i) = true ↔ s[i]? = some x ∧ s[i + 1]? = some y := by
  have h0 : s[i]? = (s.drop i)[0]? := by
    simp [List.getElem?_drop]
  have h1 : s[i + 1]? = (s.drop i)[1]? := by
    simp [List.getElem?_drop]
  rw [h0, h1]
  cases hd : s.drop i with
  | nil => simp [List.isPrefixOf]
  | cons u rest =>
    cases rest with
    | nil => simp [List.isPrefixOf]
    | cons v rest2 =>
      simp [List.isPrefixOf]
      exact ⟨fun h => ⟨h.1.symm, h.2.symm⟩, fun h => ⟨h.1.symm, h.2.symm⟩⟩

lemma isPrefixOf_single (x : Char) (s : List Char) (i : Nat) :
    [x].isPrefixOf (s.drop i) = true ↔ s[i]? = some x := by
  have h0 : s[i]? = (s.drop i)[0]? := by
    simp [List.getElem?_drop]
  rw [h0]
  cases hd : s.drop i with
  | nil => simp [List.isPrefixOf]
  | cons u rest =>
    simp [List.isPrefixOf]
    exact ⟨fun h => h.symm, fun h => h.symm⟩

/-! ### `foldl max` over candidate sentence boundaries -/

lemma foldl_max_sound (s : List Char) (a b : Nat) :
    ∀ (l : List (List Char)) (init : Int),
      l.foldl (fun best p => max best (pyRfind s p a b)) init = init ∨
      ∃ p ∈ l, l.foldl (fun best p => max best (pyRfind s p a b)) init = pyRfind s p a b := by
  intro l
  induction l with
  | nil => intro init; left; rfl
  | cons q qs ih =>
    intro init
    simp only [List.foldl_cons]
    rcases ih (max init (pyRfind s q a b)) with h | ⟨p, hp, h⟩
    · rw [h]
      rcases max_choice init (pyRfind s q a b) with hm | hm
      · left; exact hm
      · right; exact ⟨q, List.mem_cons_self q qs, hm⟩
    · right; exact ⟨p, List.mem_cons_of_mem q hp, h⟩

lemma foldl_max_ge_init (s : List Char) (a b : Nat) :
    ∀ (l : List (List Char)) (init : Int),
      init ≤ l.foldl (fun best p => max best (pyRfind s p a b)) init := by
  intro l
  induction l with
  | nil => intro init; exact le_refl init
  | cons q qs ih =>
    intro init
    simp only [List.foldl_cons]
    exact le_trans (le_max_left _ _) (ih _)

lemma foldl_max_ge_mem (s : List Char) (a b : Nat) :
    ∀ (l : List (List Char)) (init : Int) (p : List Char), p ∈ l →
      pyRfind s p a b ≤ l.foldl (fun best q => max best (pyRfind s q a b)) init := by
  intro l
  induction l with
  | nil => intro _ p hp; simp at hp
  | cons q qs ih =>
    intro init p hp
    simp only [List.foldl_cons]
    rcases List.mem_cons.mp hp with rfl | hp'
    · exact le_trans (le_max_right _ _) (foldl_max_ge_init s a b qs _)
    · exact ih _ p hp'

/-! ### Bounds on `_find_break` -/

lemma sentence_pairs_length :
    ∀ p ∈ [['.', '\n'], ['!', '\n'], ['?', '\n'], ['.', ' '], ['!', ' '], ['?', ' ']],
      List.length p = 2 := by
  intro p hp
  fin_cases hp <;> rfl

lemma find_break_le (text : List Char) (near tol : Nat) :
    find_break text near tol ≤ near := by
  unfold find_break
  simp only []
  split
  next h =>
    rcases pyRfind_sound text ['\n', '\n'] (near - tol) near with hn | ⟨i, heq, _, hib, _⟩
    · rw [hn] at h; simp at h
    · rw [heq]
      simp only [List.length_cons, List.length_nil] at hib
      simp only [Int.toNat_ofNat]
      omega
  next =>
    split
    next h =>
      rcases foldl_max_sound text (near - tol) near
        [['.', '\n'], ['!', '\n'], ['?', '\n'], ['.', ' '], ['!', ' '], ['?', ' ']] (-1)
        with hn | ⟨p, hp, heq⟩
      · rw [hn] at h; simp at h
      · rw [heq] at h ⊢
        rcases pyRfind_sound text p (near - tol) near with hn2 | ⟨i, heq2, _, hib, _⟩
        · rw [hn2] at h; simp at h
        · rw [heq2]
          rw [sentence_pairs_length p hp] at hib
          simp only [Int.toNat_ofNat]
          omega
    next =>
      split
      next h =>
        rcases pyRfind_sound text [' '] (near - tol) near with hn | ⟨i, heq, _, hib, _⟩
        · rw [hn] at h; simp at h
        · rw [heq]
          simp only [List.length_cons, List.length_nil] at hib
          simp only [Int.toNat_ofNat]
          omega
      next => exact Nat.le_refl near

lemma find_break_lb (text : List Char) (near tol : Nat) :
    find_break text near tol = near ∨
      (near - tol) + 1 ≤ find_break text near tol := by
  unfold find_break
  simp only []
  split
  next h =>
    rcases pyRfind_sound text ['\n', '\n'] (near - tol) near with hn | ⟨i, heq, hai, _, _⟩
    · rw [hn] at h; simp at h
    · right
      rw [heq]
      simp only [Int.toNat_ofNat]
      omega
  next =>
    split
    next h =>
      rcases foldl_max_sound text (near - tol) near
        [['.', '\n'], ['!', '\n'], ['?', '\n'], ['.', ' '], ['!', ' '], ['?', ' ']] (-1)
        with hn | ⟨p, hp, heq⟩
      · rw [hn] at h; simp at h
      · rw [heq] at h ⊢
        rcases pyRfind_sound text p (near - tol) near with hn2 | ⟨i, heq2, hai, _, _⟩
        · rw [hn2] at h; simp at h
        · right
          rw [heq2]
          simp only [Int.toNat_ofNat]
          omega
    next =>
      split
      next h =>
        rcases pyRfind_sound text [' '] (near - tol) near with hn | ⟨i, heq, hai, _, _⟩
        · rw [hn] at h; simp at h
        · right
          rw [heq]
          simp only [Int.toNat_ofNat]
          omega
      next => left; rfl

/-! ### `effectiveCut` and `nextStart` -/

lemma effectiveCut_gt (text : List Char) (cs tol start : Nat) (h : 0 < cs) :
    start < effectiveCut text cs tol start := by
  unfold effectiveCut
  simp only []
  split
  · omega
  next hc => omega

lemma effectiveCut_le (text : List Char) (cs tol start : Nat) :
    effectiveCut text cs tol start ≤ start + cs := by
  unfold effectiveCut
  simp only []
  split
  · exact Nat.le_refl _
  · exact find_break_le text (start + cs) tol

lemma effectiveCut_lb (text : List Char) (cs tol start : Nat) (htol : tol ≤ cs) :
    effectiveCut text cs tol start = start + cs ∨
      start + (cs - tol) + 1 ≤ effectiveCut text cs tol start := by
  unfold effectiveCut
  simp only []
  split
  · left; rfl
  next hc =>
    rcases find_break_lb text (start + cs) tol with h | h
    · left; exact h
    · right; omega

lemma nextStart_ge (text : List Char) (cs ov tol start : Nat) :
    start + 1 ≤ nextStart text cs ov tol start :=
  le_max_left _ _

lemma nextStart_le_cut (text : List Char) (cs ov tol start : Nat) (h : 0 < cs) :
    nextStart text cs ov tol start ≤ effectiveCut text cs tol start := by
  unfold nextStart
  have h1 := effectiveCut_gt text cs tol start h
  exact max_le (by omega) (Nat.sub_le _ _)

/-! ### Chunk-loop lemmas -/

/-- The chunk a recorded span denotes. -/
def spanSlice (text : List Char) (p : Nat × Nat) : List Char :=
  pyStrip ((text.drop p.1).take (p.2 - p.1))

lemma chunkLoopO_isSome (text : List Char) (cs ov tol : Nat) :
    ∀ (fuel start : Nat), text.length - start ≤ fuel →
      (chunkLoopO text cs ov tol fuel start).isSome = true := by
  intro fuel
  induction fuel with
  | zero =>
    intro start h
    unfold chunkLoopO
    have h1 : ¬ start < text.length := by omega
    simp [h1]
  | succ fuel ih =>
    intro start h
    unfold chunkLoopO
    by_cases h1 : start < text.length
    · simp only [h1, if_true]
      by_cases h2 : text.length ≤ start + cs
      · simp [h2]
      · simp only [h2, if_false]
        have hnext := nextStart_ge text cs ov tol start
        have hih := ih (nextStart text cs ov tol start) (by omega)
        rcases hsome : chunkLoopO text cs ov tol fuel (nextStart text cs ov tol start)
          with _ | rest
        · rw [hsome] at hih; simp at hih
        · simp [hsome]
    · simp [h1]

lemma chunkLoopO_eq_spans (text : List Char) (cs ov tol : Nat) :
    ∀ (fuel start : Nat),
      chunkLoopO text cs ov tol fuel start =
        (chunkSpansO text cs ov tol fuel start).map (List.map (spanSlice text)) := by
  intro fuel
  induction fuel with
  | zero =>
    intro start
    unfold chunkLoopO chunkSpansO
    by_cases h : start < text.length <;> simp [h]
  | succ fuel ih =>
    intro start
    unfold chunkLoopO chunkSpansO
    by_cases h1 : start < text.length
    · simp only [h1, if_true]
      by_cases h2 : text.length ≤ start + cs
      · simp only [h2, if_true]
        have hslice : spanSlice text (start, text.length) = pyStrip (text.drop start) := by
          unfold spanSlice
          rw [List.take_of_length_le (by rw [List.length_drop])]
        by_cases h3 : (pyStrip (text.drop start)).isEmpty <;> simp [h3, hslice]
      · simp only [h2, if_false]
        rw [ih]
        rcases hs : chunkSpansO text cs ov tol fuel (nextStart text cs ov tol start)
          with _ | rest
        · simp
        · have hslice : spanSlice text (start, effectiveCut text cs tol start) =
              pyStrip ((text.drop start).take (effectiveCut text cs tol start - start)) := rfl
          by_cases h3 :
              (pyStrip ((text.drop start).take (effectiveCut text cs tol start - start))).isEmpty
            <;> simp [h3, hslice]
    · simp [h1]

lemma chunkLoopO_elems (text : List Char) (cs ov tol : Nat) :
    ∀ (fuel start : Nat) (l : List (List Char)),
      chunkLoopO text cs ov tol fuel start = some l →
      ∀ c ∈ l, pyStrip c = c ∧ c ≠ [] := by
  intro fuel
  induction fuel with
  | zero =>
    intro start l heq c hc
    unfold chunkLoopO at heq
    by_cases h1 : start < text.length
    · simp [h1] at heq
    · simp [h1] at heq
      rw [heq] at hc
      simp at hc
  | succ fuel ih =>
    intro start l heq c hc
    unfold chunkLoopO at heq
    by_cases h1 : start < text.length
    · simp only [h1, if_true] at heq
      by_cases h2 : text.length ≤ start + cs
      · simp only [h2, if_true, Option.some.injEq] at heq
        rw [← heq] at hc
        by_cases h3 : (pyStrip (text.drop start)).isEmpty
        · simp [h3] at hc
        · simp [h3] at hc
          rw [hc]
          exact ⟨pyStrip_idem _, by simpa [List.isEmpty_iff] using h3⟩
      · simp only [h2, if_false] at heq
        rcases hrec : chunkLoopO text cs ov tol fuel (nextStart text cs ov tol start)
          with _ | rest
        · rw [hrec] at heq; simp at heq
        · rw [hrec] at heq
          simp only [Option.some.injEq] at heq
          rw [← heq] at hc
          by_cases h3 :
              (pyStrip ((text.drop start).take (effectiveCut text cs tol start - start))).isEmpty
          · simp [h3] at hc
            exact ih _ rest hrec c hc
          · simp [h3] at hc
            rcases hc with rfl | hc'
            · exact ⟨pyStrip_idem _, by simpa [List.isEmpty_iff] using h3⟩
            · exact ih _ rest hrec c hc'
    · simp [h1] at heq
      rw [heq] at hc
      simp at hc

lemma chunkLoopO_ne_nil (text : List Char) (cs ov tol : Nat) (hcs : 0 < cs) :
    ∀ (fuel start : Nat) (l : List (List Char)),
      start < text.length →
      (∃ c ∈ text.drop start, isPySpace c = false) →
      chunkLoopO text cs ov tol fuel start = some l → l ≠ [] := by
  intro fuel
  induction fuel with
  | zero =>
    intro start l h1 _ heq
    unfold chunkLoopO at heq
    simp [h1] at heq
  | succ fuel ih =>
    intro start l h1 hex heq
    unfold chunkLoopO at heq
    simp only [h1, if_true] at heq
    by_cases h2 : text.length ≤ start + cs
    · simp only [h2, if_true, Option.some.injEq] at heq
      obtain ⟨c, hc, hns⟩ := hex
      have hstrip : pyStrip (text.drop start) ≠ [] := by
        intro hnil
        rw [(pyStrip_eq_nil_iff _).mp hnil c hc] at hns
        cases hns
      have hempty : (pyStrip (text.drop start)).isEmpty = false := by
        simpa [List.isEmpty_iff] using hstrip
      rw [← heq]
      simp [hempty]
    · simp only [h2, if_false] at heq
      rcases hrec : chunkLoopO text cs ov tol fuel (nextStart text cs ov tol start)
        with _ | rest
      · rw [hrec] at heq; simp at heq
      · rw [hrec] at heq
        simp only [Option.some.injEq] at heq
        by_cases h3 :
            (pyStrip ((text.drop start).take (effectiveCut text cs tol start - start))).isEmpty
        · have hcutgt := effectiveCut_gt text cs tol start hcs
          have hcutle := effectiveCut_le text cs tol start
          have hnextle := nextStart_le_cut text cs ov tol start hcs
          have hnextlt : nextStart text cs ov tol start < text.length := by omega
          obtain ⟨c, hc, hns⟩ := hex
          have hdecomp : text.drop start =
              (text.drop start).take (effectiveCut text cs tol start - start) ++
                text.drop (effectiveCut text cs tol start) := by
            conv_lhs =>
              rw [← List.take_append_drop (effectiveCut text cs tol start - start)
                (text.drop start)]
            rw [List.drop_drop]
            congr 2
            omega
          rw [hdecomp] at hc
          rcases List.mem_append.mp hc with hmem | hmem
          · rw [(pyStrip_eq_nil_iff _).mp (List.isEmpty_iff.mp h3) c hmem] at hns
            cases hns
          · have hc2 : c ∈ text.drop (nextStart text cs ov tol start) := by
              have hd2 : text.drop (effectiveCut text cs tol start) =
                  (text.drop (nextStart text cs ov tol start)).drop
                    (effectiveCut text cs tol start - nextStart text cs ov tol start) := by
                rw [List.drop_drop]
                congr 1
                omega
              rw [hd2] at hmem
              exact List.mem_of_mem_drop hmem
            have hrest := ih (nextStart text cs ov tol start) rest hnextlt ⟨c, hc2, hns⟩ hrec
            rw [← heq]
            simpa [h3] using hrest
        · rw [← heq]
          simp [h3]

lemma chunkSpansO_bounds (text : List Char) (cs ov tol : Nat) (htol : tol ≤ cs) :
    ∀ (fuel start : Nat) (l : List (Nat × Nat)),
      chunkSpansO text cs ov tol fuel start = some l →
      ∀ p ∈ l, p.1 < p.2 ∧ p.2 - p.1 ≤ cs ∧
        (p.2 = text.length ∨ min (cs - tol + 1) cs ≤ p.2 - p.1) := by
  intro fuel
  induction fuel with
  | zero =>
    intro start l heq p hp
    unfold chunkSpansO at heq
    by_cases h1 : start < text.length
    · simp [h1] at heq
    · simp [h1] at heq
      rw [heq] at hp
      simp at hp
  | succ fuel ih =>
    intro start l heq p hp
    unfold chunkSpansO at heq
    by_cases h1 : start < text.length
    · simp only [h1, if_true] at heq
      by_cases h2 : text.length ≤ start + cs
      · simp only [h2, if_true, Option.some.injEq] at heq
        rw [← heq] at hp
        by_cases h3 : (pyStrip (text.drop start)).isEmpty
        · simp [h3] at hp
        · simp [h3] at hp
          rw [hp]
          exact ⟨h1, by omega, Or.inl rfl⟩
      · simp only [h2, if_false] at heq
        rcases hrec : chunkSpansO text cs ov tol fuel (nextStart text cs ov tol start)
          with _ | rest
        · rw [hrec] at heq; simp at heq
        · rw [hrec] at heq
          simp only [Option.some.injEq] at heq
          rw [← heq] at hp
          by_cases h3 :
              (pyStrip ((text.drop start).take (effectiveCut text cs tol start - start))).isEmpty
          · simp [h3] at hp
            exact ih _ rest hrec p hp
          · simp [h3] at hp
            rcases hp with rfl | hp'
            · have hpos : 0 < effectiveCut text cs tol start - start := by
                by_contra hzero
                have htake : (text.drop start).take (effectiveCut text cs tol start - start)
                    = [] := by
                  rw [show effectiveCut text cs tol start - start = 0 by omega]
                  exact List.take_zero _
                rw [htake] at h3
                simp [pyStrip] at h3
              have hle := effectiveCut_le text cs tol start
              refine ⟨by omega, by omega, ?_⟩
              rcases effectiveCut_lb text cs tol start htol with hlb | hlb
              · right; omega
              · right; omega
            · exact ih _ rest hrec p hp'
    · simp [h1] at heq
      rw [heq] at hp
      simp at hp

/-! ### Spec-side description of the boundary search (for the refinement
claim about `_find_break`) -/

/-- Sentence-ending punctuation, per the spec. -/
def isSentencePunct (c : Char) : Bool := c == '.' || c == '!' || c == '?'

/-- The delimiter the code actually accepts after sentence punctuation. -/
def spaceOrNewline (c : Char) : Bool := c == ' ' || c == '\n'

/-- A paragraph break (double newline) starting at index `i`. -/
def paraAt (s : List Char) (i : Nat) : Bool :=
  s[i]? == some '\n' && s[i + 1]? == some '\n'

/-- Sentence punctuation at `i` immediately followed by a delimiter. -/
def sentAt (delim : Char → Bool) (s : List Char) (i : Nat) : Bool :=
  (match s[i]? with | some c => isSentencePunct c | none => false) &&
    (match s[i + 1]? with | some c => delim c | none => false)

/-- A plain space at index `i`. -/
def spaceAt (s : List Char) (i : Nat) : Bool := s[i]? == some ' '

/-- Modelled from the spec's words (§4.1): find the best cut within the
trailing tolerance window, trying boundary kinds in strict preference
order — paragraph break, then sentence punctuation followed by a
delimiter, then plain space, else hard cut at the candidate end. The
delimiter predicate is a parameter so that both the spec's literal
"whitespace" reading and the code's space-or-newline behaviour can be
expressed. -/
def specFindBreak (delim : Char → Bool) (s : List Char) (near tol : Nat) : Nat :=
  let lo := near - tol
  let p1 := if 2 ≤ near then lastHit (paraAt s) lo (near - 2) else -1
  if p1 != -1 then p1.toNat + 2
  else
    let p2 := if 2 ≤ near then lastHit (sentAt delim s) lo (near - 2) else -1
    if p2 != -1 then p2.toNat + 2
    else
      let p3 := if 1 ≤ near then lastHit (spaceAt s) lo (near - 1) else -1
      if p3 != -1 then p3.toNat + 1
      else near

lemma scan_ext (Q : Nat → Prop) (x y : Int)
    (hxs : x = -1 ∨ ∃ i : Nat, x = (i : Int) ∧ Q i)
    (hxc : ∀ i : Nat, Q i → (i : Int) ≤ x)
    (hys : y = -1 ∨ ∃ i : Nat, y = (i : Int) ∧ Q i)
    (hyc : ∀ i : Nat, Q i → (i : Int) ≤ y) : x = y := by
  rcases hxs with rfl | ⟨i, rfl, hqi⟩
  · rcases hys with rfl | ⟨j, rfl, hqj⟩
    · rfl
    · have := hxc j hqj; omega
  · rcases hys with rfl | ⟨j, rfl, hqj⟩
    · have := hyc i hqi; omega
    · have h1 := hxc j hqj
      have h2 := hyc i hqi
      omega

lemma getElem?_lt_length {s : List Char} {n : Nat} {a : Char} (h : s[n]? = some a) :
    n < s.length := by
  by_contra hc
  rw [List.getElem?_eq_none_iff.mpr (by omega)] at h
  cases h

lemma para_scan_eq (s : List Char) (near tol : Nat) :
    pyRfind s ['\n', '\n'] (near - tol) near =
      (if 2 ≤ near then lastHit (paraAt s) (near - tol) (near - 2) else -1) := by
  apply scan_ext (fun i => (near - tol) ≤ i ∧ i + 2 ≤ near ∧ paraAt s i = true)
  · rcases pyRfind_sound s ['\n', '\n'] (near - tol) near with h | ⟨i, heq, hai, hib, hpre⟩
    · left; exact h
    · right
      simp only [List.length_cons, List.length_nil] at hib
      obtain ⟨h1, h2⟩ := (isPrefixOf_pair '\n' '\n' s i).mp hpre
      exact ⟨i, heq, hai, by omega, by simp [paraAt, h1, h2]⟩
  · rintro i ⟨hai, hin, hpara⟩
    simp only [paraAt, Bool.and_eq_true, beq_iff_eq] at hpara
    have hlen := getElem?_lt_length hpara.2
    exact pyRfind_complete s ['\n', '\n'] (near - tol) near i hai (by simp; omega)
      (by simp; omega) ((isPrefixOf_pair '\n' '\n' s i).mpr ⟨hpara.1, hpara.2⟩)
  · by_cases hn : 2 ≤ near
    · simp only [hn, if_true]
      rcases lastHit_sound (paraAt s) (near - tol) (near - 2) with h | ⟨i, heq, hai, hit, hp⟩
      · left; exact h
      · right; exact ⟨i, heq, hai, by omega, hp⟩
    · left; simp [hn]
  · rintro i ⟨hai, hin, hpara⟩
    have hn : 2 ≤ near := by omega
    simp only [hn, if_true]
    exact lastHit_complete (paraAt s) (near - tol) (near - 2) i hai (by omega) hpara

lemma space_scan_eq (s : List Char) (near tol : Nat) :
    pyRfind s [' '] (near - tol) near =
      (if 1 ≤ near then lastHit (spaceAt s) (near - tol) (near - 1) else -1) := by
  apply scan_ext (fun i => (near - tol) ≤ i ∧ i + 1 ≤ near ∧ spaceAt s i = true)
  · rcases pyRfind_sound s [' '] (near - tol) near with h | ⟨i, heq, hai, hib, hpre⟩
    · left; exact h
    · right
      simp only [List.length_cons, List.length_nil] at hib
      have h1 := (isPrefixOf_single ' ' s i).mp hpre
      exact ⟨i, heq, hai, by omega, by simp [spaceAt, h1]⟩
  · rintro i ⟨hai, hin, hsp⟩
    simp only [spaceAt, beq_iff_eq] at hsp
    have hlen := getElem?_lt_length hsp
    exact pyRfind_complete s [' '] (near - tol) near i hai (by simp; omega)
      (by simp; omega) ((isPrefixOf_single ' ' s i).mpr hsp)
  · by_cases hn : 1 ≤ near
    · simp only [hn, if_true]
      rcases lastHit_sound (spaceAt s) (near - tol) (near - 1) with h | ⟨i, heq, hai, hit, hp⟩
      · left; exact h
      · right; exact ⟨i, heq, hai, by omega, hp⟩
    · left; simp [hn]
  · rintro i ⟨hai, hin, hsp⟩
    have hn : 1 ≤ near := by omega
    simp only [hn, if_true]
    exact lastHit_complete (spaceAt s) (near - tol) (near - 1) i hai (by omega) hsp

lemma sent_scan_eq (s : List Char) (near tol : Nat) :
    [['.', '\n'], ['!', '\n'], ['?', '\n'], ['.', ' '], ['!', ' '], ['?', ' ']].foldl
        (fun best punct => max best (pyRfind s punct (near - tol) near)) (-1) =
      (if 2 ≤ near then lastHit (sentAt spaceOrNewline s) (near - tol) (near - 2) else -1) := by
  apply scan_ext
    (fun i => (near - tol) ≤ i ∧ i + 2 ≤ near ∧ sentAt spaceOrNewline s i = true)
  · rcases foldl_max_sound s (near - tol) near
      [['.', '\n'], ['!', '\n'], ['?', '\n'], ['.', ' '], ['!', ' '], ['?', ' ']] (-1)
      with h | ⟨p, hp, h⟩
    · left; exact h
    · rcases pyRfind_sound s p (near - tol) near with h2 | ⟨i, heq, hai, hib, hpre⟩
      · left; rw [h, h2]
      · right
        refine ⟨i, by rw [h, heq], hai, ?_, ?_⟩
        · have := sentence_pairs_length p hp; omega
        · fin_cases hp <;>
            · obtain ⟨h1, h2⟩ := (isPrefixOf_pair _ _ s i).mp hpre
              simp [sentAt, h1, h2, isSentencePunct, spaceOrNewline]
  · rintro i ⟨hai, hin, hsent⟩
    cases hget : s[i]? with
    | none => simp [sentAt, hget] at hsent
    | some c =>
      cases hget2 : s[i + 1]? with
      | none => simp [sentAt, hget, hget2] at hsent
      | some d =>
        simp only [sentAt, hget, hget2, Bool.and_eq_true] at hsent
        have hlen := getElem?_lt_length hget2
        have hc : (c = '.' ∨ c = '!') ∨ c = '?' := by
          simpa [isSentencePunct] using hsent.1
        have hd : d = ' ' ∨ d = '\n' := by
          simpa [spaceOrNewline] using hsent.2
        have hpre : [c, d].isPrefixOf (s.drop i) = true :=
          (isPrefixOf_pair c d s i).mpr ⟨hget, hget2⟩
        have hmem : [c, d] ∈
            [['.', '\n'], ['!', '\n'], ['?', '\n'], ['.', ' '], ['!', ' '], ['?', ' ']] := by
          rcases hc with (rfl | rfl) | rfl <;> rcases hd with rfl | rfl <;> simp
        have hcomp := pyRfind_complete s [c, d] (near - tol) near i hai
          (by simp; omega) (by simp; omega) hpre
        exact le_trans hcomp (foldl_max_ge_mem s (near - tol) near _ (-1) [c, d] hmem)
  · by_cases hn : 2 ≤ near
    · simp only [hn, if_true]
      rcases lastHit_sound (sentAt spaceOrNewline s) (near - tol) (near - 2)
        with h | ⟨i, heq, hai, hit, hp⟩
      · left; exact h
      · right; exact ⟨i, heq, hai, by omega, hp⟩
    · left; simp [hn]
  · rintro i ⟨hai, hin, hsent⟩
    have hn : 2 ≤ near := by omega
    simp only [hn, if_true]
    exact lastHit_complete (sentAt spaceOrNewline s) (near - tol) (near - 2) i hai
      (by omega) hsent

lemma find_break_eq_specFindBreak (s : List Char) (near tol : Nat) :
    find_break s near tol = specFindBreak spaceOrNewline s near tol := by
  simp only [find_break, specFindBreak]
  rw [para_scan_eq s near tol, sent_scan_eq s near tol, space_scan_eq s near tol]

/-! ### Ingestion orchestrator (`ingest_documents` from `app/ingest.py`).
The external collaborators are abstracted: the embedding model is an
arbitrary function `embed`, and the ChromaDB collection is a list of
entries keyed by id, with `upsert` replacing an existing id or appending
a new one. The third component of the result counts the chunks embedded
during the run (zero means no embedding call was made). -/

def CHUNK_TARGET_CHARS : Nat := 1200

def OVERLAP_CHARS : Nat := 200

def COHERE_EMBED_BATCH_SIZE : Nat := 96

def COLLECTION_NAME : String := "transfer_knowledge"

/-- A loaded document (name and text), as produced by `_load_documents`. -/
structure DocRec where
  name : String
  text : List Char
  deriving Repr, DecidableEq

/-- A candidate chunk with its stable id `<filename>::<chunk_index>`. -/
structure ChunkRec where
  id : String
  text : List Char
  source : String
  chunk_index : Nat
  deriving Repr, DecidableEq

/-- The `all_chunks` list built by `ingest_documents`. -/
def buildChunks (docs : List DocRec) : List ChunkRec :=
  docs.flatMap (fun d =>
    ((chunk_text d.text CHUNK_TARGET_CHARS OVERLAP_CHARS).enum).map
      (fun p => ChunkRec.mk (d.name ++ "::" ++ toString p.1) p.2 d.name p.1))

/-- One stored record of the ChromaDB collection. -/
structure StoreEntry (V : Type) where
  id : String
  embedding : V
  document : List Char
  source : String
  chunk_index : Nat

/-- The collection state: a list of entries keyed by `id`. -/
abbrev Store (V : Type) : Type := List (StoreEntry V)

/-- The ids present in the collection. -/
def storeIds {V : Type} (s : Store V) : List String :=
  s.map (fun e => e.id)

/-- Upsert a single entry: replace the entry with the same id, or append. -/
def upsertOne {V : Type} (s : Store V) (e : StoreEntry V) : Store V :=
  if (storeIds s).contains e.id then
    s.map (fun x => if x.id == e.id then e else x)
  else s ++ [e]

/-- `collection.upsert` over a batch of entries. -/
def upsertMany {V : Type} (s : Store V) (es : List (StoreEntry V)) : Store V :=
  es.foldl upsertOne s

/-- The `IngestResponse` model from `app/models.py`. -/
structure IngestResponse where
  success : Bool
  documents_ingested : Nat
  message : String
  deriving Repr, DecidableEq

/-- `ingest_documents(overwrite)` from `app/ingest.py`, given the loaded
documents and the current collection state. Returns the response, the
new collection state, and the number of chunks embedded. -/
def ingest_documents {V : Type} (embed : List Char → V) (docs : List DocRec)
    (overwrite : Bool) (store0 : Store V) : IngestResponse × Store V × Nat :=
  let collection : Store V := if overwrite then [] else store0
  let all_chunks := buildChunks docs
  if all_chunks.isEmpty then
    (IngestResponse.mk true 0
      "No content to ingest - all documents were empty after chunking.",
      collection, 0)
  else
    let new_chunks := if overwrite then all_chunks
      else all_chunks.filter (fun c => !((storeIds collection).contains c.id))
    if !overwrite && new_chunks.isEmpty then
      (IngestResponse.mk true 0
        ("All " ++ toString all_chunks.length ++
          " chunk(s) are already present in " ++ COLLECTION_NAME ++
          ". Use --overwrite to rebuild."),
        collection, 0)
    else
      let entries := new_chunks.map (fun c =>
        StoreEntry.mk c.id (embed c.text) c.text c.source c.chunk_index)
      (IngestResponse.mk true new_chunks.length
        ("Ingested " ++ toString new_chunks.length ++ " chunk(s) from " ++
          toString docs.length ++ " document(s) into collection " ++
          COLLECTION_NAME ++ "."),
        upsertMany collection entries, new_chunks.length)

/-! ### Retry loop of `_embed_chunks` -/

/-- The `for attempt in range(3)` retry loop around one embedding batch
(`app/ingest.py`, lines 267-284). `call n` is the outcome of attempt `n`.
The second component records the back-off sleeps (`2 ** attempt` seconds
after each failed non-final attempt). -/
def embedBatch {E α : Type} (call : Nat → Except E α) : Except E α × List Nat :=
  match call 0 with
  | .ok v => (.ok v, [])
  | .error _ =>
    match call 1 with
    | .ok v => (.ok v, [2 ^ 0])
    | .error _ =>
      match call 2 with
      | .ok v => (.ok v, [2 ^ 0, 2 ^ 1])
      | .error e => (.error e, [2 ^ 0, 2 ^ 1])

/-- `range(0, len(texts), COHERE_EMBED_BATCH_SIZE)` slicing. -/
def batchesOf96 {α : Type} : List α → List (List α)
  | [] => []
  | x :: xs => (x :: xs).take 96 :: batchesOf96 ((x :: xs).drop 96)
termination_by l => l.length
decreasing_by
  simp [List.length_drop]
  omega

/-- `_embed_chunks` over all batches: vectors accumulate across batches
in order; a batch whose three attempts all fail aborts the whole run with
that batch's final error and no vectors. -/
def embedBatches {E V : Type} (call : List (List Char) → Nat → Except E (List V)) :
    List (List (List Char)) → Except E (List V) × List Nat
  | [] => (.ok [], [])
  | b :: rest =>
    match embedBatch (call b) with
    | (.ok v, sl) =>
      match embedBatches call rest with
      | (.ok vs, sl2) => (.ok (v ++ vs), sl ++ sl2)
      | (.error e, sl2) => (.error e, sl ++ sl2)
    | (.error e, sl) => (.error e, sl)

/-- `_embed_chunks(co, texts)` from `app/ingest.py`. -/
def embed_chunks {E V : Type} (call : List (List Char) → Nat → Except E (List V))
    (texts : List (List Char)) : Except E (List V) × List Nat :=
  embedBatches call (batchesOf96 texts)

/-! ### Investigation pipeline (`app/query.py`). Every pipeline function
there is an unimplemented stub whose body unconditionally raises
`NotImplementedError`; the embedding returns that exception through
`Except`. -/

def TOP_K : Nat := 5

/-- A retrieved chunk (the entry shape `_retrieve_context` documents). -/
structure RetrievedChunk where
  text : String
  source : String
  distance : Int
  deriving Repr, DecidableEq

/-- The `Citation` model from `app/models.py`. -/
structure Citation where
  document_name : String
  excerpt : String
  deriving Repr, DecidableEq

/-- The `InvestigateResponse` model from `app/models.py`. -/
structure InvestigateResponse where
  timeline : String
  failure_point : String
  draft_response : String
  citations : List Citation
  deriving Repr, DecidableEq

/-- The `InvestigateRequest` model from `app/models.py` (the minimum
length of `complaint` is enforced by the pydantic boundary, not here). -/
structure InvestigateRequest where
  complaint : String
  deriving Repr, DecidableEq

/-- A raised Python exception. -/
inductive PyException where
  | notImplementedError (msg : String)
  deriving Repr, DecidableEq

/-- `_parse_response(raw, context_chunks)` from `app/query.py`
(lines 91-110): the entire body is
`raise NotImplementedError("_parse_response not yet implemented")`. -/
def parse_response (raw : String) (context_chunks : List RetrievedChunk) :
    Except PyException InvestigateResponse :=
  .error (.notImplementedError "_parse_response not yet implemented")

/-- `run_investigation(request)` from `app/query.py` (lines 113-139): the
entire body is
`raise NotImplementedError("run_investigation not yet implemented")`. -/
def run_investigation (request : InvestigateRequest) :
    Except PyException InvestigateResponse :=
  .error (.notImplementedError "run_investigation not yet implemented")

/-! ### Ingestion lemmas -/

lemma mem_storeIds_upsertOne {V : Type} (s : Store V) (e : StoreEntry V) (i : String) :
    i ∈ storeIds (upsertOne s e) ↔ i ∈ storeIds s ∨ i = e.id := by
  unfold upsertOne
  by_cases h : (storeIds s).contains e.id = true
  · rw [if_pos h]
    have hids : storeIds (s.map (fun x => if x.id == e.id then e else x)) = storeIds s := by
      unfold storeIds
      rw [List.map_map]
      apply List.map_congr_left
      intro x _
      by_cases hx : x.id = e.id
      · simp [hx]
      · simp [hx]
    rw [hids]
    constructor
    · exact Or.inl
    · rintro (hm | rfl)
      · exact hm
      · exact List.elem_iff.mp h
  · rw [if_neg h]
    unfold storeIds
    rw [List.map_append]
    simp

lemma mem_storeIds_upsertMany {V : Type} :
    ∀ (es : List (StoreEntry V)) (s : Store V) (i : String),
      (i ∈ storeIds s ∨ ∃ e ∈ es, e.id = i) → i ∈ storeIds (upsertMany s es) := by
  intro es
  induction es with
  | nil =>
    intro s i h
    rcases h with h | ⟨e, he, _⟩
    · exact h
    · simp at he
  | cons e es ih =>
    intro s i h
    unfold upsertMany
    simp only [List.foldl_cons]
    apply ih
    rcases h with h | ⟨e2, he2, hid⟩
    · left
      exact (mem_storeIds_upsertOne s e i).mpr (Or.inl h)
    · rcases List.mem_cons.mp he2 with rfl | he3
      · left
        exact (mem_storeIds_upsertOne s e2 i).mpr (Or.inr hid.symm)
      · right
        exact ⟨e2, he3, hid⟩

lemma ingest_covers {V : Type} (embed : List Char → V) (docs : List DocRec)
    (store0 : Store V) :
    ∀ c ∈ buildChunks docs,
      c.id ∈ storeIds (ingest_documents embed docs false store0).2.1 := by
  intro c hc
  unfold ingest_documents
  simp only [Bool.false_eq_true, if_false, Bool.not_false, Bool.true_and]
  split
  next h1 =>
    rw [List.isEmpty_iff] at h1
    rw [h1] at hc
    simp at hc
  next h1 =>
    split
    next h2 =>
      show c.id ∈ storeIds store0
      rw [List.isEmpty_iff, List.filter_eq_nil_iff] at h2
      have h3 := h2 c hc
      simp at h3
      exact h3
    next h2 =>
      by_cases h3 : (storeIds store0).contains c.id = true
      · exact mem_storeIds_upsertMany _ _ _ (Or.inl (List.elem_iff.mp h3))
      · apply mem_storeIds_upsertMany
        right
        refine ⟨StoreEntry.mk c.id (embed c.text) c.text c.source c.chunk_index, ?_, rfl⟩
        apply List.mem_map.mpr
        refine ⟨c, ?_, rfl⟩
        apply List.mem_filter.mpr
        refine ⟨hc, ?_⟩
        have h4 : (storeIds store0).contains c.id = false := Bool.eq_false_iff.mpr h3
        simp [h4]
        exact fun hm => h3 (List.elem_iff.mpr hm)

lemma ingest_second_run {V : Type} (embed : List Char → V) (docs : List DocRec)
    (store : Store V)
    (h : ∀ c ∈ buildChunks docs, c.id ∈ storeIds store) :
    (ingest_documents embed docs false store).2.1 = store ∧
    (ingest_documents embed docs false store).2.2 = 0 ∧
    (ingest_documents embed docs false store).1.success = true ∧
    (ingest_documents embed docs false store).1.documents_ingested = 0 ∧
    ((buildChunks docs).isEmpty = false →
      (ingest_documents embed docs false store).1.message =
        "All " ++ toString (buildChunks docs).length ++
          " chunk(s) are already present in " ++ COLLECTION_NAME ++
          ". Use --overwrite to rebuild.") := by
  unfold ingest_documents
  simp only [Bool.false_eq_true, if_false, Bool.not_false, Bool.true_and]
  split
  next h1 =>
    refine ⟨rfl, rfl, rfl, rfl, ?_⟩
    intro hfalse
    rw [h1] at hfalse
    cases hfalse
  next h1 =>
    have h2 : ((buildChunks docs).filter
        (fun c => !((storeIds store).contains c.id))).isEmpty = true := by
      rw [List.isEmpty_iff, List.filter_eq_nil_iff]
      intro c hc
      simp
      exact h c hc
    rw [if_pos h2]
    exact ⟨rfl, rfl, rfl, rfl, fun _ => rfl⟩

/-! ### Top-level facts about `chunk_text` and `chunk_spans` -/

lemma chunk_text_some (text : List Char) (cs ov : Nat) :
    chunkLoopO (normalize text) cs ov (cs / 4) (normalize text).length 0 =
      some (chunk_text text cs ov) := by
  have h := chunkLoopO_isSome (normalize text) cs ov (cs / 4) (normalize text).length 0
    (by omega)
  rcases heq : chunkLoopO (normalize text) cs ov (cs / 4) (normalize text).length 0
    with _ | l
  · rw [heq] at h; simp at h
  · rw [show chunk_text text cs ov = l by simp [chunk_text, heq]]

lemma chunk_spans_some (text : List Char) (cs ov : Nat) :
    chunkSpansO (normalize text) cs ov (cs / 4) (normalize text).length 0 =
      some (chunk_spans text cs ov) := by
  have hlink := chunkLoopO_eq_spans (normalize text) cs ov (cs / 4)
    (normalize text).length 0
  have h := chunkLoopO_isSome (normalize text) cs ov (cs / 4) (normalize text).length 0
    (by omega)
  rw [hlink] at h
  rcases heq : chunkSpansO (normalize text) cs ov (cs / 4) (normalize text).length 0
    with _ | l
  · rw [heq] at h; simp at h
  · rw [show chunk_spans text cs ov = l by simp [chunk_spans, heq]]

lemma chunk_text_eq_spans_map (text : List Char) (cs ov : Nat) :
    chunk_text text cs ov = (chunk_spans text cs ov).map (spanSlice (normalize text)) := by
  have hlink := chunkLoopO_eq_spans (normalize text) cs ov (cs / 4)
    (normalize text).length 0
  rw [chunk_text_some text cs ov, chunk_spans_some text cs ov] at hlink
  simpa using hlink

lemma exists_nonspace_of_pyStrip_ne_nil (s : List Char) (h : pyStrip s ≠ []) :
    ∃ c ∈ s, isPySpace c = false := by
  by_contra hc
  push_neg at hc
  apply h
  rw [pyStrip_eq_nil_iff]
  intro c hcs
  have := hc c hcs
  revert this
  cases isPySpace c <;> simp

lemma chunk_text_elems (text : List Char) (cs ov : Nat) :
    ∀ c ∈ chunk_text text cs ov, pyStrip c = c ∧ c ≠ [] :=
  chunkLoopO_elems (normalize text) cs ov (cs / 4) (normalize text).length 0
    (chunk_text text cs ov) (chunk_text_some text cs ov)

lemma chunk_text_ne_nil (text : List Char) (cs ov : Nat) (hcs : 0 < cs)
    (h : pyStrip text ≠ []) : chunk_text text cs ov ≠ [] := by
  obtain ⟨c, hc, hns⟩ := mem_normalize_nonspace text
    (exists_nonspace_of_pyStrip_ne_nil text h)
  have hlen : 0 < (normalize text).length := List.length_pos.mpr (by
    intro hnil; rw [hnil] at hc; simp at hc)
  exact chunkLoopO_ne_nil (normalize text) cs ov (cs / 4) hcs
    (normalize text).length 0 (chunk_text text cs ov) hlen
    ⟨c, by simpa using hc, hns⟩ (chunk_text_some text cs ov)

lemma chunk_text_short (text : List Char) (cs ov : Nat)
    (hlen : text.length < cs) (h : pyStrip text ≠ []) :
    chunk_text text cs ov = [pyStrip (normalize text)] := by
  obtain ⟨c, hc, hns⟩ := mem_normalize_nonspace text
    (exists_nonspace_of_pyStrip_ne_nil text h)
  have hnlen : (normalize text).length ≤ text.length := normalize_length_le text
  have hpos : 0 < (normalize text).length := List.length_pos.mpr (by
    intro hnil; rw [hnil] at hc; simp at hc)
  have hstrip : pyStrip (normalize text) ≠ [] := by
    intro hnil
    rw [(pyStrip_eq_nil_iff _).mp hnil c hc] at hns
    cases hns
  have hsome := chunk_text_some text cs ov
  obtain ⟨k, hk⟩ : ∃ k, (normalize text).length = k + 1 :=
    ⟨(normalize text).length - 1, by omega⟩
  rw [hk] at hsome
  unfold chunkLoopO at hsome
  rw [if_pos (by omega), if_pos (by omega)] at hsome
  simp only [List.drop_zero, Option.some.injEq] at hsome
  have hempty : (pyStrip (normalize text)).isEmpty = false := by
    simpa [List.isEmpty_iff] using hstrip
  rw [hempty] at hsome
  simp at hsome
  exact hsome.symm

lemma getLast?_drop_of_lt {α : Type} (l : List α) (m : Nat) (h : m < l.length) :
    (l.drop m).getLast? = l.getLast? := by
  conv_rhs => rw [← List.take_append_drop m l]
  rw [List.getLast?_append]
  cases hx : (l.drop m).getLast? with
  | none =>
    rw [List.getLast?_eq_none_iff] at hx
    have := congrArg List.length hx
    rw [List.length_drop] at this
    simp at this
    omega
  | some c => rfl

lemma chunk_text_two (text : List Char) (cs ov : Nat) (hcs : 0 < cs)
    (htrim : pyStrip (normalize text) = normalize text)
    (hlen : cs < (normalize text).length) :
    2 ≤ (chunk_text text cs ov).length := by
  have hne : normalize text ≠ [] := by
    intro hnil; rw [hnil] at hlen; simp at hlen
  obtain ⟨hhead, hlast⟩ := trimmed_of_pyStrip_eq_self (normalize text) htrim
  obtain ⟨x, xs, hx⟩ := List.exists_cons_of_ne_nil hne
  obtain ⟨z, hz⟩ : ∃ z, (normalize text).getLast? = some z := by
    rw [hx]; exact ⟨(x :: xs).getLast (by simp), List.getLast?_eq_getLast_of_ne_nil (by simp)⟩
  have hzns : isPySpace z = false := hlast z hz
  have hxns : isPySpace x = false := hhead x (by rw [hx]; rfl)
  have hsome := chunk_text_some text cs ov
  obtain ⟨k, hk⟩ : ∃ k, (normalize text).length = k + 1 :=
    ⟨(normalize text).length - 1, by omega⟩
  rw [hk] at hsome
  unfold chunkLoopO at hsome
  rw [if_pos (by omega), if_neg (by omega)] at hsome
  simp only [List.drop_zero, Nat.sub_zero] at hsome
  set t := normalize text with ht
  set ns := nextStart t cs ov (cs / 4) 0 with hns
  set cut := effectiveCut t cs (cs / 4) 0 with hcut
  have hcutgt : 0 < cut := effectiveCut_gt t cs (cs / 4) 0 hcs
  have hcutle : cut ≤ 0 + cs := effectiveCut_le t cs (cs / 4) 0
  have hnsle : ns ≤ cut := nextStart_le_cut t cs ov (cs / 4) 0 hcs
  have hnslt : ns < t.length := by omega
  have hnsge : 1 ≤ ns := nextStart_ge t cs ov (cs / 4) 0
  -- the first chunk is non-empty: it contains the non-space head of `t`
  have hchunk : pyStrip (t.take cut) ≠ [] := by
    intro hnil
    have hmem : x ∈ t.take cut := by
      rw [hx]
      rcases Nat.exists_eq_add_of_lt hcutgt with ⟨m, hm⟩
      rw [show cut = m + 1 by omega]
      simp
    rw [(pyStrip_eq_nil_iff _).mp hnil x hmem] at hxns
    cases hxns
  -- the recursive call succeeds and is non-empty: the non-space last char
  -- of `t` lies beyond `ns`
  have hlen2 : t.length = k + 1 := hk
  rcases hrec : chunkLoopO t cs ov (cs / 4) k ns with _ | rest
  · have hsome2 := chunkLoopO_isSome t cs ov (cs / 4) k ns (by omega)
    rw [hrec] at hsome2; simp at hsome2
  · have hzmem : z ∈ t.drop ns := by
      have hdropne : (t.drop ns).getLast? = some z := by
        rw [getLast?_drop_of_lt t ns hnslt]; exact hz
      exact mem_getLast?_mem hdropne
    have hrest : rest ≠ [] :=
      chunkLoopO_ne_nil t cs ov (cs / 4) hcs k ns rest hnslt ⟨z, hzmem, hzns⟩ hrec
    rw [hrec] at hsome
    have hempty : (pyStrip (t.take cut)).isEmpty = false := by
      simpa [List.isEmpty_iff] using hchunk
    rw [hempty] at hsome
    simp only [Bool.false_eq_true, if_false, Option.some.injEq] at hsome
    rw [← hsome]
    have hrl := List.length_pos.mpr hrest
    simp
    omega

lemma chunk_spans_bounds (text : List Char) (cs ov : Nat) :
    ∀ p ∈ chunk_spans text cs ov, p.1 < p.2 ∧ p.2 - p.1 ≤ cs ∧
      (p.2 = (normalize text).length ∨ min (cs - cs / 4 + 1) cs ≤ p.2 - p.1) :=
  chunkSpansO_bounds (normalize text) cs ov (cs / 4) (Nat.div_le_self cs 4)
    (normalize text).length 0 (chunk_spans text cs ov) (chunk_spans_some text cs ov)

lemma chunk_text_length_le (text : List Char) (cs ov : Nat) :
    ∀ c ∈ chunk_text text cs ov, c.length ≤ cs := by
  intro c hc
  rw [chunk_text_eq_spans_map text cs ov] at hc
  obtain ⟨p, hp, rfl⟩ := List.mem_map.mp hc
  have hb := chunk_spans_bounds text cs ov p hp
  unfold spanSlice
  calc (pyStrip ((List.drop p.1 (normalize text)).take (p.2 - p.1))).length
      ≤ ((List.drop p.1 (normalize text)).take (p.2 - p.1)).length := pyStrip_length_le _
    _ ≤ p.2 - p.1 := by rw [List.length_take]; omega
    _ ≤ cs := hb.2.1

/-! ### Claim theorems -/

/-- C1: for every input text, every chunk_size > 0 and every overlap
(including overlap ≥ chunk_size), `_chunk_text` terminates: the chosen cut
strictly exceeds the current start (falling back to the hard candidate end
`start + chunk_size` when the boundary search returns a position ≤ start,
which is what `effectiveCut` embeds), the next start
`max(start + 1, cut - overlap)` advances by at least one character per
iteration, and consequently the loop completes within `length - start`
iterations (the fuel-indexed loop never runs out of fuel). -/
theorem claim_C1 : ∀ (text : List Char) (cs ov tol start : Nat), 0 < cs →
    start < effectiveCut text cs tol start ∧
    start + 1 ≤ nextStart text cs ov tol start ∧
    (∀ fuel, text.length - start ≤ fuel →
      (chunkLoopO text cs ov tol fuel start).isSome = true) := by
  intro text cs ov tol start hcs
  exact ⟨effectiveCut_gt text cs tol start hcs, nextStart_ge text cs ov tol start,
    fun fuel hf => chunkLoopO_isSome text cs ov tol fuel start hf⟩

/-- Witness for C1 at text "ab cd", chunk_size 3, overlap 2. -/
theorem claim_C1_witness :
    0 < effectiveCut "ab cd".data 3 0 0 ∧
    1 ≤ nextStart "ab cd".data 3 2 0 0 ∧
    (chunkLoopO "ab cd".data 3 2 0 5 0).isSome = true := by
  have h := claim_C1 "ab cd".data 3 2 0 0 (by decide)
  exact ⟨h.1, h.2.1, h.2.2 5 (by decide)⟩

/-- C2: running ingestion twice with overwrite=false over unchanged
documents yields the same stored state (hence the same set of stored chunk
ids) both times, and on the second run the orchestrator embeds zero
chunks, returning success with documents_ingested = 0; more generally,
whenever every candidate id already exists in the collection,
`ingest_documents` returns success with documents_ingested = 0 and the
explanatory all-present message, performing no embedding. -/
theorem claim_C2 : ∀ (V : Type) (embed : List Char → V) (docs : List DocRec)
    (store0 : Store V),
    (ingest_documents embed docs false
        (ingest_documents embed docs false store0).2.1).2.1 =
      (ingest_documents embed docs false store0).2.1 ∧
    (ingest_documents embed docs false
        (ingest_documents embed docs false store0).2.1).2.2 = 0 ∧
    (ingest_documents embed docs false
        (ingest_documents embed docs false store0).2.1).1.success = true ∧
    (ingest_documents embed docs false
        (ingest_documents embed docs false store0).2.1).1.documents_ingested = 0 ∧
    (∀ store : Store V, (∀ c ∈ buildChunks docs, c.id ∈ storeIds store) →
      (ingest_documents embed docs false store).2.1 = store ∧
      (ingest_documents embed docs false store).2.2 = 0 ∧
      (ingest_documents embed docs false store).1.success = true ∧
      (ingest_documents embed docs false store).1.documents_ingested = 0 ∧
      ((buildChunks docs).isEmpty = false →
        (ingest_documents embed docs false store).1.message =
          "All " ++ toString (buildChunks docs).length ++
            " chunk(s) are already present in " ++ COLLECTION_NAME ++
            ". Use --overwrite to rebuild.")) := by
  intro V embed docs store0
  have hsecond := ingest_second_run embed docs
    (ingest_documents embed docs false store0).2.1
    (ingest_covers embed docs store0)
  exact ⟨hsecond.1, hsecond.2.1, hsecond.2.2.1, hsecond.2.2.2.1,
    fun store hstore => ingest_second_run embed docs store hstore⟩

/-- Witness for C2 with one document "a.txt" containing "hello world"
ingested into an initially empty store. -/
theorem claim_C2_witness :
    (ingest_documents (fun l : List Char => l.length)
        [DocRec.mk "a.txt" "hello world".data] false
        (ingest_documents (fun l : List Char => l.length)
          [DocRec.mk "a.txt" "hello world".data] false
          ([] : Store Nat)).2.1).2.2 = 0 ∧
    (ingest_documents (fun l : List Char => l.length)
        [DocRec.mk "a.txt" "hello world".data] false
        (ingest_documents (fun l : List Char => l.length)
          [DocRec.mk "a.txt" "hello world".data] false
          ([] : Store Nat)).2.1).1.documents_ingested = 0 ∧
    (ingest_documents (fun l : List Char => l.length)
        [DocRec.mk "a.txt" "hello world".data] false
        [StoreEntry.mk "a.txt::0" 11 "hello world".data "a.txt" 0]).2.2 = 0 := by
  have h := claim_C2 Nat (fun l : List Char => l.length)
    [DocRec.mk "a.txt" "hello world".data] ([] : Store Nat)
  refine ⟨h.2.1, h.2.2.2.1, ?_⟩
  exact (h.2.2.2.2 [StoreEntry.mk "a.txt::0" 11 "hello world".data "a.txt" 0]
    (by decide)).2.1

/-- C3 counterexample: chunking "Para one.\n\nPara two." with
chunk_size 10 and overlap 2 does NOT cut just after the double newline
(position 11): the double newline cannot fit inside the search window that
ends at the candidate end 10, so the first cut lands at position 10 (after
the sentence boundary ".\n"). -/
theorem claim_C3_counterexample :
    (chunk_spans "Para one.\n\nPara two.".data 10 2).head? = some (0, 10) ∧
    "Para one.\n\n".data.length = 11 ∧ (10 : Nat) ≠ 11 := by decide

/-- C3 (corrected): chunking "Para one.\n\nPara two." with chunk_size 10
and overlap 2 cuts first at position 10, just after the sentence-ending
".\n" of "Para one.\n" (the paragraph boundary at 11 lies beyond the
candidate end so `_find_break` cannot select it); the resulting chunks are
"Para one.", ".\n\nPara tw" (a hard cut that ends mid-word) and "two.". -/
theorem claim_C3 :
    chunk_text "Para one.\n\nPara two.".data 10 2 =
      ["Para one.".data, ".\n\nPara tw".data, "two.".data] ∧
    chunk_spans "Para one.\n\nPara two.".data 10 2 = [(0, 10), (8, 18), (16, 20)] ∧
    find_break "Para one.\n\nPara two.".data 10 2 = 10 := by decide

/-- C4 counterexample: a non-final chunk can be shorter than chunk_size.
With text "abcdefgh ijklmnopqrstuvwxyz", chunk_size 10, overlap 0, the
first emitted chunk spans [0, 9) — length 9 < 10 — yet its cut 9 is not
the end of the text (27), i.e. it is not the final end-of-text chunk. -/
theorem claim_C4_counterexample :
    (0, 9) ∈ chunk_spans "abcdefgh ijklmnopqrstuvwxyz".data 10 0 ∧
    9 - 0 < 10 ∧
    (9 : Nat) ≠ (normalize "abcdefgh ijklmnopqrstuvwxyz".data).length := by decide

/-- C4 (amended): every chunk's un-trimmed extent is at most chunk_size,
and every chunk other than the final end-of-text one has extent at least
`min (chunk_size - chunk_size/4 + 1) chunk_size` — a boundary found inside
the tolerance window may shorten a non-final chunk by up to
`chunk_size/4 - 1` characters, not more. -/
theorem claim_C4 : ∀ (text : List Char) (cs ov : Nat),
    ∀ p ∈ chunk_spans text cs ov,
      p.2 - p.1 ≤ cs ∧
      (p.2 = (normalize text).length ∨ min (cs - cs / 4 + 1) cs ≤ p.2 - p.1) := by
  intro text cs ov p hp
  have h := chunk_spans_bounds text cs ov p hp
  exact ⟨h.2.1, h.2.2⟩

/-- Witness for C4 at the span (0, 9) of the counterexample text. -/
theorem claim_C4_witness :
    9 - 0 ≤ 10 ∧
    ((9 : Nat) = (normalize "abcdefgh ijklmnopqrstuvwxyz".data).length ∨
      min (10 - 10 / 4 + 1) 10 ≤ 9 - 0) := by
  have hmem : ((0, 9) : Nat × Nat) ∈ chunk_spans "abcdefgh ijklmnopqrstuvwxyz".data 10 0 :=
    by decide
  exact claim_C4 "abcdefgh ijklmnopqrstuvwxyz".data 10 0 (0, 9) hmem

/-- C5 counterexample: the single-space text is a non-empty input and
chunk_size 1 > 0, yet `_chunk_text` returns the empty list (the only
candidate chunk strips to nothing and is discarded). -/
theorem claim_C5_counterexample :
    " ".data ≠ [] ∧ 0 < 1 ∧ chunk_text " ".data 1 200 = [] := by decide

/-- C5 (amended): for every input text that is non-empty AFTER TRIMMING
and every chunk_size > 0, `_chunk_text` returns a non-empty list, and
every element is non-empty and already trimmed (hence non-empty after
trimming). -/
theorem claim_C5 : ∀ (text : List Char) (cs ov : Nat), 0 < cs → pyStrip text ≠ [] →
    chunk_text text cs ov ≠ [] ∧
    ∀ c ∈ chunk_text text cs ov, c ≠ [] ∧ pyStrip c = c := by
  intro text cs ov hcs h
  refine ⟨chunk_text_ne_nil text cs ov hcs h, fun c hc => ?_⟩
  have he := chunk_text_elems text cs ov c hc
  exact ⟨he.2, he.1⟩

/-- Witness for C5 at text "hi there", chunk_size 5, overlap 2. -/
theorem claim_C5_witness :
    pyStrip "hi there".data ≠ [] ∧ chunk_text "hi there".data 5 2 ≠ [] := by
  have h := claim_C5 "hi there".data 5 2 (by decide) (by decide)
  exact ⟨by decide, h.1⟩

/-- C6 counterexample: the claim says sentence punctuation "immediately
followed by whitespace" is a sentence boundary, but the code only accepts
a space or a newline as the delimiter. In "abc.\tdefgh" with near 8 and
tolerance 8, the period at index 3 is followed by a tab (whitespace), so
the claimed behaviour returns 5, while `_find_break` falls through to the
hard cut 8. -/
theorem claim_C6_counterexample :
    find_break "abc.\tdefgh".data 8 8 = 8 ∧
    specFindBreak isPySpace "abc.\tdefgh".data 8 8 = 5 ∧
    find_break "abc.\tdefgh".data 8 8 ≠ specFindBreak isPySpace "abc.\tdefgh".data 8 8 := by
  decide

/-- C6 (amended): `_find_break` searches only the window of `tolerance`
characters before the candidate end and applies the boundary kinds in
strict preference order — paragraph break, then sentence punctuation
('.', '!' or '?') immediately followed by A SPACE OR A NEWLINE (not
arbitrary whitespace), then a plain space, else the hard cut at the
candidate end — as captured by the spec-side description
`specFindBreak spaceOrNewline`. -/
theorem claim_C6 : ∀ (text : List Char) (near tol : Nat),
    find_break text near tol = specFindBreak spaceOrNewline text near tol :=
  find_break_eq_specFindBreak

/-- C7 counterexample: a document shorter than chunk_size containing a
bare carriage return is not returned verbatim: "a\rb" (trimmed, length 3
< 10) chunks to ["a\nb"], the line-ending-normalized text, not the
original. -/
theorem claim_C7_counterexample :
    "a\rb".data.length < 10 ∧ pyStrip "a\rb".data = "a\rb".data ∧
    chunk_text "a\rb".data 10 2 = ["a\nb".data] ∧
    "a\nb".data ≠ "a\rb".data := by decide

/-- C7 (corrected): a document shorter than chunk_size and non-empty
after trimming chunks into exactly one chunk equal to the trimmed
LINE-ENDING-NORMALIZED text (CRLF and CR become LF first); and a document
whose normalized text is trimmed and longer than chunk_size splits into
more than one chunk. -/
theorem claim_C7 : ∀ (text : List Char) (cs ov : Nat),
    (text.length < cs → pyStrip text ≠ [] →
      chunk_text text cs ov = [pyStrip (normalize text)]) ∧
    (0 < cs → pyStrip (normalize text) = normalize text →
      cs < (normalize text).length →
      2 ≤ (chunk_text text cs ov).length) := by
  intro text cs ov
  exact ⟨fun h1 h2 => chunk_text_short text cs ov h1 h2,
    fun h1 h2 h3 => chunk_text_two text cs ov h1 h2 h3⟩

/-- Witness for C7: "short doc" (length 9 < 50) yields exactly its
trimmed normalized self; the two-paragraph text of C3 (length 20 > 10)
splits into at least two chunks. -/
theorem claim_C7_witness :
    chunk_text "short doc".data 50 10 = [pyStrip (normalize "short doc".data)] ∧
    2 ≤ (chunk_text "Para one.\n\nPara two.".data 10 2).length := by
  have h1 := (claim_C7 "short doc".data 50 10).1 (by decide) (by decide)
  have h2 := (claim_C7 "Para one.\n\nPara two.".data 10 2).2 (by decide) (by decide)
    (by decide)
  exact ⟨h1, h2⟩

/-- C8: the retry loop of `_embed_chunks` attempts each batch up to 3
times in total; after a failure on attempt 1 it waits 1 second, after a
failure on attempt 2 it waits 2 seconds, and the exception raised on the
third failed attempt propagates unmodified to the caller, with no vectors
from the failing batch (the `Except.error` result carries none). -/
theorem claim_C8 : ∀ (E α : Type) (call : Nat → Except E α) (v : α) (e0 e1 e2 : E),
    (call 0 = .ok v → embedBatch call = (.ok v, [])) ∧
    (call 0 = .error e0 → call 1 = .ok v → embedBatch call = (.ok v, [1])) ∧
    (call 0 = .error e0 → call 1 = .error e1 → call 2 = .ok v →
      embedBatch call = (.ok v, [1, 2])) ∧
    (call 0 = .error e0 → call 1 = .error e1 → call 2 = .error e2 →
      embedBatch call = (.error e2, [1, 2])) := by
  intro E α call v e0 e1 e2
  refine ⟨fun h0 => ?_, fun h0 h1 => ?_, fun h0 h1 h2 => ?_, fun h0 h1 h2 => ?_⟩
  · unfold embedBatch; rw [h0]
  · unfold embedBatch; rw [h0, h1]; rfl
  · unfold embedBatch; rw [h0, h1, h2]; rfl
  · unfold embedBatch; rw [h0, h1, h2]; rfl

/-- Witness for C8: a call failing on all three attempts yields exactly
the third error and the back-off schedule [1, 2]. -/
theorem claim_C8_witness :
    embedBatch (fun _ => (.error "boom" : Except String (List Nat))) =
      (.error "boom", [1, 2]) :=
  (claim_C8 String (List Nat) (fun _ => .error "boom") [] "boom" "boom" "boom").2.2.2
    rfl rfl rfl

/-- C9 (code bug): the spec, the docstrings and the test stubs all state
that `investigate()` on a complaint with retrievable matching content
returns a response with non-empty citations, timeline and failure point,
but `run_investigation` and `_parse_response` in `app/query.py` are
unimplemented stubs that unconditionally raise `NotImplementedError`: for
every request the pipeline raises instead of returning, so it never
returns any `InvestigateResponse` at all, let alone one with the claimed
fields. -/
theorem claim_C9 : ∀ (request : InvestigateRequest) (raw : String)
    (context_chunks : List RetrievedChunk),
    run_investigation request =
      .error (PyException.notImplementedError "run_investigation not yet implemented") ∧
    parse_response raw context_chunks =
      .error (PyException.notImplementedError "_parse_response not yet implemented") ∧
    (∀ r : InvestigateResponse, run_investigation request ≠ .ok r) := by
  intro request raw context_chunks
  exact ⟨rfl, rfl, fun r h => Except.noConfusion h⟩

/-- Witness for C9 at a concrete complaint (the example from the test
stub in `tests/test_query.py`). -/
theorem claim_C9_witness :
    run_investigation (InvestigateRequest.mk
        "Transfer of $500 on 2024-10-01 has not arrived after 7 days.") =
      .error (PyException.notImplementedError "run_investigation not yet implemented") ∧
    run_investigation (InvestigateRequest.mk
        "Transfer of $500 on 2024-10-01 has not arrived after 7 days.") ≠
      .ok (InvestigateResponse.mk "timeline" "failure point" "draft" []) := by
  have h := claim_C9 (InvestigateRequest.mk
    "Transfer of $500 on 2024-10-01 has not arrived after 7 days.") "raw output" []
  exact ⟨h.1, h.2.2 (InvestigateResponse.mk "timeline" "failure point" "draft" [])⟩

/-- C10: `_find_break` never returns a cut beyond the candidate end, and
every string returned by `_chunk_text` has length at most chunk_size —
chunk_size is a hard upper bound on chunk length. -/
theorem claim_C10 :
    (∀ (text : List Char) (near tol : Nat), find_break text near tol ≤ near) ∧
    (∀ (text : List Char) (cs ov : Nat), ∀ c ∈ chunk_text text cs ov,
      c.length ≤ cs) :=
  ⟨find_break_le, chunk_text_length_le⟩

/-- Witness for C10 on the two-paragraph example text. -/
theorem claim_C10_witness :
    find_break "Para one.\n\nPara two.".data 10 2 ≤ 10 ∧
    ("Para one.".data).length ≤ 10 := by
  refine ⟨claim_C10.1 "Para one.\n\nPara two.".data 10 2, ?_⟩
  exact claim_C10.2 "Para one.\n\nPara two.".data 10 2 "Para one.".data (by decide)

end TransferAgent
